import Mathlib

/-!
# Verification of the `contact_crawler` extraction engine

A shallow embedding of `src/contact_crawler.py` (repository
`Inferno565/blank_media`): an HTML contact-information extractor built on
BeautifulSoup.  The DOM is embedded as a pure tree; BeautifulSoup's
traversal order (depth-first, document order), its structural `Tag`
equality, and the two regular expressions `EMAIL_RE` and `PHONE_RE` are
modelled directly.  External collaborators (the `urllib.parse.urljoin`
resolver and the `phonenumbers` library) are parameters of the embedded
functions, exactly at the interface the source uses them.

Python character-level conventions are modelled on ASCII: `str.lower`,
`str.strip`, `\s`, `\d` and the regex character classes in the source
only involve ASCII behaviour on the inputs of interest.

Confidence scores: the source uses float constants 0.9, 0.5, 0.7, 0.6,
0.75, 0.8 and `min(0.95, base + 0.25)`.  We embed confidences as integer
hundredths (90, 50, 70, 60, 75, 80, `min 95 (base + 25)`), which is
order- and equality-isomorphic to the float arithmetic on every pair of
values the program can produce (all constants are distinct multiples of
five hundredths; the only float rounding, `0.7 + 0.25 < 0.95`, compares
no produced pair differently).
-/

/-! ## Python string primitives (on `List Char`) -/

/-- The characters Python's `str.strip()` and `str.split()` (and `\s` in
`re`) treat as whitespace, restricted to ASCII. -/
def pyWs (c : Char) : Bool :=
  c == ' ' || c == '\t' || c == '\n' || c == '\r' || c == '\x0b' || c == '\x0c'

/-- `str.strip()` on a character list: drop whitespace from both ends. -/
def pyStripL (s : List Char) : List Char :=
  ((s.dropWhile pyWs).reverse.dropWhile pyWs).reverse

/-- `str.strip()`. -/
def pyStrip (s : String) : String := ⟨pyStripL s.toList⟩

/-- `str.lower()` (ASCII). -/
def lowerL (s : List Char) : List Char := s.map Char.toLower

/-- `str.lower()` on `String`. -/
def lowerS (s : String) : String := ⟨lowerL s.toList⟩

/-- Is `pat` a prefix of `s` (Python `str.startswith`)? -/
def isPrefixL : List Char → List Char → Bool
  | [], _ => true
  | _ :: _, [] => false
  | a :: as, b :: bs => a == b && isPrefixL as bs

/-- Does `s` contain `pat` as a contiguous substring (Python `in`)? -/
def isSubstrL (pat : List Char) : List Char → Bool
  | [] => isPrefixL pat []
  | c :: rest => isPrefixL pat (c :: rest) || isSubstrL pat rest

/-- Python `pat in hay` for strings. -/
def containsSub (hay pat : String) : Bool := isSubstrL pat.toList hay.toList

/-- Python `hay.startswith(pat)`. -/
def startsWithP (hay pat : String) : Bool := isPrefixL pat.toList hay.toList

/-- `str.replace(' ', '')`: remove space characters (only U+0020, as the
source writes `style.replace(' ', '')`). -/
def removeSpacesL (s : List Char) : List Char := s.filter (fun c => c != ' ')

/-- `re.sub(r"\D", "", s)`: keep only ASCII digits. -/
def digitsOnly (s : String) : String := ⟨s.toList.filter Char.isDigit⟩

/-- `s.split(':', 1)[1]`: everything after the first colon (the source
only evaluates this under a `startswith` guard that guarantees a colon). -/
def afterColon (s : String) : String :=
  ⟨(s.toList.dropWhile (fun c => c != ':')).drop 1⟩

/-- `s.split('?')[0]`: everything before the first question mark. -/
def beforeQuery (s : String) : String :=
  ⟨s.toList.takeWhile (fun c => c != '?')⟩

/-- One-pass `str.split()` (split on whitespace runs, no empty parts);
`acc` holds the reversed current word. -/
def splitWsAux : List Char → List Char → List (List Char)
  | [], acc => if acc.isEmpty then [] else [acc.reverse]
  | c :: cs, acc =>
    if pyWs c then
      if acc.isEmpty then splitWsAux cs [] else acc.reverse :: splitWsAux cs []
    else splitWsAux cs (c :: acc)

/-- `str.split()`. -/
def splitWs (s : String) : List (List Char) := splitWsAux s.toList []

/-- `' '.join(parts)`. -/
def joinSpace : List (List Char) → List Char
  | [] => []
  | [w] => w
  | w :: ws => w ++ ' ' :: joinSpace ws

/-- `' '.join(s.split())`: collapse internal whitespace and strip — the
name normalization used for deduplicating name candidates. -/
def collapseWs (s : String) : String := ⟨joinSpace (splitWs s)⟩

/-- Strict lexicographic order on character lists by code point —
Python's `<` on `str`. -/
def strLtL : List Char → List Char → Bool
  | [], [] => false
  | [], _ :: _ => true
  | _ :: _, [] => false
  | a :: as, b :: bs =>
    if a.toNat < b.toNat then true
    else if b.toNat < a.toNat then false
    else strLtL as bs

/-- Python `<` on strings. -/
def strLt (a b : String) : Bool := strLtL a.toList b.toList

/-! ## `EMAIL_RE`

`re.compile(r"[a-zA-Z0-9_.+-]+@[a-zA-Z0-9-]+\.[a-zA-Z0-9-.]+")`.

Since `@` is not in the local-part class and `.`/`@` are not in the
domain class, the backtracking greedy match is equivalent to maximal
munch: take the maximal run of each class in turn.  `findall` scans
left to right emitting non-overlapping matches. -/

/-- Characters of `[a-zA-Z0-9_.+-]` (local part). -/
def isEmailLocal (c : Char) : Bool :=
  c.isAlpha || c.isDigit || c == '_' || c == '.' || c == '+' || c == '-'

/-- Characters of `[a-zA-Z0-9-]` (domain label). -/
def isEmailDom (c : Char) : Bool := c.isAlpha || c.isDigit || c == '-'

/-- Characters of `[a-zA-Z0-9-.]` (after the mandatory dot). -/
def isEmailTail (c : Char) : Bool := c.isAlpha || c.isDigit || c == '-' || c == '.'

/-- Match `EMAIL_RE` at the start of `s`; return `(matched, rest)`. -/
def emailMatchAt (s : List Char) : Option (List Char × List Char) :=
  let l := s.takeWhile isEmailLocal
  let r1 := s.dropWhile isEmailLocal
  if l.isEmpty then none else
  match r1 with
  | '@' :: r2 =>
    let d := r2.takeWhile isEmailDom
    let r3 := r2.dropWhile isEmailDom
    if d.isEmpty then none else
    match r3 with
    | '.' :: r4 =>
      let t := r4.takeWhile isEmailTail
      let r5 := r4.dropWhile isEmailTail
      if t.isEmpty then none else
      some (l ++ '@' :: d ++ '.' :: t, r5)
    | _ => none
  | _ => none

/-- `EMAIL_RE.findall`, with explicit fuel (each step consumes at least
one character, so fuel `s.length` is exact; fuel keeps the recursion
structural so that proofs can evaluate it). -/
def emailFindallAux : Nat → List Char → List String
  | _, [] => []
  | 0, _ :: _ => []
  | fuel + 1, c :: rest =>
    match emailMatchAt (c :: rest) with
    | some (m, r) => (⟨m⟩ : String) :: emailFindallAux fuel r
    | none => emailFindallAux fuel rest

/-- `EMAIL_RE.findall(txt)`. -/
def emailFindall (s : List Char) : List String := emailFindallAux s.length s

/-- `EMAIL_RE.match(addr)`: does the pattern match a prefix of `addr`? -/
def emailMatchPrefix (addr : String) : Bool := (emailMatchAt addr.toList).isSome

/-! ## `PHONE_RE`

`re.compile(r"(\+\d{1,3}[\s\-\.]*)?(?:\(?\d{2,4}\)?[\s\-\.]*)?\d[\d\s\-\.]{6,20}\d")`.

A matcher is a function from input to the list of possible rests in
backtracking priority order (greedy quantifiers longest-first, optional
groups present-first); the head of the final list is the rest of the
match Python's engine produces. -/

/-- Characters of `[\s\-\.]`. -/
def isPhoneSep (c : Char) : Bool := pyWs c || c == '-' || c == '.'

/-- Characters of `[\d\s\-\.]`. -/
def isPhoneBody (c : Char) : Bool := c.isDigit || isPhoneSep c

/-- A matcher: possible rests, in backtracking priority order. -/
abbrev PMatcher := List Char → List (List Char)

/-- Match a single character of class `p`. -/
def charRest (p : Char → Bool) : PMatcher := fun s =>
  match s with
  | c :: cs => if p c then [cs] else []
  | [] => []

/-- `X{lo,hi}` for a character class `X`: greedy, longest first. -/
def repClassRests (p : Char → Bool) (lo hi : Nat) : PMatcher := fun s =>
  let r := (s.takeWhile p).length
  let m := min hi r
  (List.range (m + 1 - lo)).map (fun i => s.drop (m - i))

/-- `X*` for a character class `X`: greedy, longest first. -/
def starClassRests (p : Char → Bool) : PMatcher := fun s =>
  repClassRests p 0 s.length s

/-- `A?`: try with `A` first, then without. -/
def optRests (f : PMatcher) : PMatcher := fun s => f s ++ [s]

/-- Sequencing of matchers, preserving priority order. -/
def seqRests (f g : PMatcher) : PMatcher := fun s => (f s).flatMap g

/-- `(\+\d{1,3}[\s\-\.]*)` — group 1. -/
def phoneGrp1 : PMatcher :=
  seqRests (charRest (fun c => c == '+'))
    (seqRests (repClassRests Char.isDigit 1 3) (starClassRests isPhoneSep))

/-- `(?:\(?\d{2,4}\)?[\s\-\.]*)` — group 2. -/
def phoneGrp2 : PMatcher :=
  seqRests (optRests (charRest (fun c => c == '(')))
    (seqRests (repClassRests Char.isDigit 2 4)
      (seqRests (optRests (charRest (fun c => c == ')')))
        (starClassRests isPhoneSep)))

/-- `\d[\d\s\-\.]{6,20}\d` — the mandatory tail. -/
def phoneTail : PMatcher :=
  seqRests (charRest Char.isDigit)
    (seqRests (repClassRests isPhoneBody 6 20) (charRest Char.isDigit))

/-- The whole `PHONE_RE`. -/
def phoneRe : PMatcher :=
  seqRests (optRests phoneGrp1) (seqRests (optRests phoneGrp2) phoneTail)

/-- Length of the `PHONE_RE` match starting exactly at the head of `s`
(the first rest in priority order), if any. -/
def phoneMatchAt (s : List Char) : Option Nat :=
  (phoneRe s).head?.map (fun r => s.length - r.length)

/-- `PHONE_RE.search(txt).group(0)`: the first (leftmost) match.
The source iterates `for m in PHONE_RE.findall(txt)` but inside the loop
re-runs `PHONE_RE.search(txt)` and processes only that first match each
time (deduplicated by the `seen` set), so the loop's observable effect
is: process the first match once, if at least one match exists — and
`findall` is non-empty exactly when `search` succeeds. -/
def phoneFirstMatch : List Char → Option (List Char)
  | [] => none
  | c :: rest =>
    match phoneMatchAt (c :: rest) with
    | some n => some ((c :: rest).take n)
    | none => phoneFirstMatch rest

/-! ## The DOM tree

BeautifulSoup's parse tree: element tags with attribute maps and owned
children, text nodes, and comment nodes.  A mutual inductive keeps all
recursions structural (hence kernel-evaluable).  The soup's own document
object is represented as the root element (BeautifulSoup gives it the
name `[document]` and no attributes); `find_all` searches descendants of
the node it is called on, excluding that node itself. -/

mutual
inductive Node where
  | elem (tag : String) (attrs : List (String × String)) (children : NodeList)
  | text (s : String)
  | comment (s : String)
inductive NodeList where
  | nil
  | cons (head : Node) (tail : NodeList)
end

def NodeList.ofList : List Node → NodeList
  | [] => NodeList.nil
  | n :: ns => NodeList.cons n (NodeList.ofList ns)

/-- Element constructor taking a plain list of children. -/
def el (tag : String) (attrs : List (String × String)) (cs : List Node) : Node :=
  Node.elem tag attrs (NodeList.ofList cs)

/-- The tag name (`Tag.name`); empty for text/comment nodes, which have
no `name` (the source only reads `name` off elements). -/
def tagOf : Node → String
  | Node.elem t _ _ => t
  | _ => ""

/-- The attribute map of an element. -/
def attrsOf : Node → List (String × String)
  | Node.elem _ a _ => a
  | _ => []

/-- `Tag.get(key)`: first binding of the attribute, if present. -/
def attrGet (n : Node) (k : String) : Option String :=
  ((attrsOf n).find? (fun p => p.1 == k)).map (fun p => p.2)

/-- `Tag.get(key, default)`: in the source the default is `''`, and a
`None` stored value cannot occur, so this also models `get(key) or ''`. -/
def attrD (n : Node) (k : String) : String := (attrGet n k).getD ""

/-- `Tag.has_attr(key)`. -/
def hasAttrB (n : Node) (k : String) : Bool := (attrGet n k).isSome

/-- Is `n` an element with tag `t`? -/
def isTag (n : Node) (t : String) : Bool :=
  match n with
  | Node.elem tg _ _ => tg == t
  | _ => false

mutual
/-- All nodes of the subtree rooted at a node, paired with the list of
ancestor subtrees (nearest first), in document (preorder) order. -/
def nodeWA (anc : List Node) : Node → List (Node × List Node)
  | Node.elem t a cs =>
    (Node.elem t a cs, anc) :: listWA (Node.elem t a cs :: anc) cs
  | n => [(n, anc)]
def listWA (anc : List Node) : NodeList → List (Node × List Node)
  | NodeList.nil => []
  | NodeList.cons c cs => nodeWA anc c ++ listWA anc cs
end

/-- All descendants of the root (excluding the root itself, like
`soup.find_all`), with ancestor lists that end at the root. -/
def allNodesWA : Node → List (Node × List Node)
  | Node.elem t a cs => listWA [Node.elem t a cs] cs
  | _ => []

/-- `soup.find_all(tag)`: descendant elements with the given tag, in
document order, with their ancestors. -/
def findAllTag (root : Node) (t : String) : List (Node × List Node) :=
  (allNodesWA root).filter (fun p => isTag p.1 t)

mutual
/-- Remove every descendant element whose tag is in `tags`, with its
whole subtree (`for s in soup([...]): s.extract()`). -/
def removeTagsN (tags : List String) : Node → Node
  | Node.elem t a cs => Node.elem t a (removeTagsL tags cs)
  | n => n
def removeTagsL (tags : List String) : NodeList → NodeList
  | NodeList.nil => NodeList.nil
  | NodeList.cons c cs =>
    match c with
    | Node.elem t a gs =>
      if tags.contains t then removeTagsL tags cs
      else NodeList.cons (Node.elem t a (removeTagsL tags gs)) (removeTagsL tags cs)
    | _ => NodeList.cons c (removeTagsL tags cs)
end

mutual
/-- Remove every comment node
(`for comment in soup.find_all(text=Comment): comment.extract()`). -/
def removeCommentsN : Node → Node
  | Node.elem t a cs => Node.elem t a (removeCommentsL cs)
  | n => n
def removeCommentsL : NodeList → NodeList
  | NodeList.nil => NodeList.nil
  | NodeList.cons c cs =>
    match c with
    | Node.comment _ => removeCommentsL cs
    | Node.elem t a gs => NodeList.cons (Node.elem t a (removeCommentsL gs)) (removeCommentsL cs)
    | n => NodeList.cons n (removeCommentsL cs)
end

mutual
/-- The descendant strings of a node in document order, as consumed by
`Tag.get_text` (bs4 ≥ 4.9 excludes comments from `get_text`). -/
def nodeStrings : Node → List String
  | Node.elem _ _ cs => listStrings cs
  | Node.text s => [s]
  | Node.comment _ => []
def listStrings : NodeList → List String
  | NodeList.nil => []
  | NodeList.cons c cs => nodeStrings c ++ listStrings cs
end

/-- `Tag.get_text(separator=' ', strip=True)`: join the stripped,
non-empty descendant strings with single spaces. -/
def getTextSp (n : Node) : String :=
  ⟨joinSpace (((nodeStrings n).map (fun s => pyStripL s.toList)).filter
    (fun w => !w.isEmpty))⟩

/-- `Tag.string`: for a node with a single child, recurse; a text or
comment node is its own string; otherwise `None`. -/
def nodeString : Node → Option String
  | Node.text s => some s
  | Node.comment s => some s
  | Node.elem _ _ (NodeList.cons c NodeList.nil) => nodeString c
  | Node.elem _ _ _ => none

/-- Attribute dictionaries are equal as finite maps. -/
def attrsEqv (a b : List (String × String)) : Bool :=
  a.all (fun p => ((b.find? (fun q => q.1 == p.1)).map (fun q => q.2)) == some p.2) &&
  b.all (fun p => ((a.find? (fun q => q.1 == p.1)).map (fun q => q.2)) == some p.2)

mutual
/-- bs4 structural `Tag.__eq__`: same name, same attribute map
(dictionary equality, hence order-insensitive), same contents
pointwise.  `NavigableString.__eq__` is plain string equality and
ignores the `Comment` subclass. -/
def nodeBEq : Node → Node → Bool
  | Node.elem t1 a1 c1, Node.elem t2 a2 c2 =>
    t1 == t2 && attrsEqv a1 a2 && listBEq c1 c2
  | Node.text s1, Node.text s2 => s1 == s2
  | Node.text s1, Node.comment s2 => s1 == s2
  | Node.comment s1, Node.text s2 => s1 == s2
  | Node.comment s1, Node.comment s2 => s1 == s2
  | _, _ => false
def listBEq : NodeList → NodeList → Bool
  | NodeList.nil, NodeList.nil => true
  | NodeList.cons a as, NodeList.cons b bs => nodeBEq a b && listBEq as bs
  | _, _ => false
end

/-! ## VisibilityFilter: `_is_hidden` -/

/-- The self-checks of `_is_hidden`: inline `display:none` (after
removing spaces and lowercasing), `aria-hidden="true"`, or a `hidden`
attribute.  Note the self-check does *not* test for the `template` tag —
only the ancestor loop does. -/
def hiddenMarks (n : Node) : Bool :=
  isSubstrL "display:none".toList (lowerL (removeSpacesL (attrD n "style").toList)) ||
  attrGet n "aria-hidden" == some "true" ||
  hasAttrB n "hidden"

/-- `_is_hidden(elem)` where `ancestors` is `elem.parents` (nearest
first, up to and including the `[document]` root).  The ancestor loop
additionally treats a `template` ancestor as hiding.  bs4 `Tag`s define
`__bool__` as constantly `True`, so the source's `if not elem` guard
only excludes `None`, which cannot reach this call. -/
def is_hidden (ancestors : List Node) (n : Node) : Bool :=
  ancestors.any (fun p => isTag p "template" || hiddenMarks p) || hiddenMarks n

/-! ## TextStream: `_visible_texts` -/

/-- A visible text fragment: the trimmed text together with the
containing element's ancestor chain `anc` (the containing element itself
is `anc.head`, its parents are `anc.tail`) — the `(parent, txt)` pairs
the source returns. -/
structure Frag where
  anc : List Node
  txt : String

/-- `_is_hidden(parent)` for a fragment. -/
def fragHidden (f : Frag) : Bool :=
  match f.anc with
  | p :: rest => is_hidden rest p
  | [] => false

/-- The text-collection loop of `_visible_texts`, applied to the tree
after script/style/noscript/iframe subtrees and comments are removed:
for each text node, skip it when its parent's tag is `script`, `style`
or `template`, when it strips to empty, or when the parent is hidden. -/
def collectTexts (t : Node) : List Frag :=
  (allNodesWA t).filterMap (fun p =>
    match p.1 with
    | Node.text s =>
      match p.2 with
      | par :: _ =>
        if tagOf par == "script" || tagOf par == "style" || tagOf par == "template" then none
        else
          let txt := pyStrip s
          if txt == "" then none
          else if is_hidden p.2.tail par then none
          else some ⟨p.2, txt⟩
      | [] => none
    | _ => none)

/-- `_visible_texts(soup)`: destructively removes
script/style/noscript/iframe subtrees and comment nodes from the soup,
then collects the visible fragments.  Returns the fragments together
with the mutated tree (the source mutates `soup` in place). -/
def visible_texts (t : Node) : List Frag × Node :=
  let t2 := removeCommentsN (removeTagsN ["script", "style", "noscript", "iframe"] t)
  (collectTexts t2, t2)

/-! ## SocialLinkExtractor: `extract_socials` -/

/-- The module constant `SOCIAL_DOMAINS`. -/
def SOCIAL_DOMAINS : List String :=
  ["linkedin.com", "facebook.com", "instagram.com", "twitter.com", "x.com",
   "youtube.com", "github.com", "behance.net", "t.me", "wa.me"]

/-- The anchor scan of `extract_socials`: for each `<a>` with a truthy
`href`, resolve it against the base URL and keep it when some social
domain occurs in the lowercased href; the inner `continue` on a
`javascript:` href skips every matching domain, so nothing is appended
for such hrefs.  `resolve` is `urllib.parse.urljoin`, an external
collaborator. -/
def rawSocials (resolve : String → String → String) (base : String) (t : Node) :
    List String :=
  (findAllTag t "a").filterMap (fun p =>
    let href := attrD p.1 "href"
    if href == "" then none
    else
      let hl := lowerS href
      if SOCIAL_DOMAINS.any (fun dom => containsSub hl dom) then
        if startsWithP hl "javascript:" then none else some (resolve base href)
      else none)

/-- The order-preserving, first-occurrence deduplication loop
(`seen = set(); out = []; ...`) shared by `extract_socials`. -/
def dedupFirst (seen : List String) : List String → List String
  | [] => []
  | u :: us => if seen.contains u then dedupFirst seen us else u :: dedupFirst (u :: seen) us

/-- `extract_socials(soup, base_url)`. -/
def extract_socials (resolve : String → String → String) (base : String) (t : Node) :
    List String :=
  dedupFirst [] (rawSocials resolve base t)

/-! ## EmailExtractor: `extract_emails` -/

/-- The `mailto:` scan: for each `<a>` whose lowercased href starts with
`mailto:`, take the address after the scheme and before any `?` suffix,
strip it, and keep it when `EMAIL_RE` matches a prefix of it and the
anchor is not hidden.  The *entire* remaining address is kept, not just
the matched prefix. -/
def mailtoEmails (t : Node) : List String :=
  (findAllTag t "a").filterMap (fun p =>
    let href := attrD p.1 "href"
    if startsWithP (lowerS href) "mailto:" then
      let addr := pyStrip (beforeQuery (afterColon href))
      if emailMatchPrefix addr then
        if is_hidden p.2 p.1 then none else some addr
      else none
    else none)

/-- `EMAIL_RE.findall` over the visible fragments. -/
def textEmails (frags : List Frag) : List String :=
  frags.flatMap (fun f => emailFindall f.txt.toList)

/-- Insert into a `strLt`-sorted list of strings. -/
def insertStr (x : String) : List String → List String
  | [] => [x]
  | y :: ys => if strLt x y then x :: y :: ys else y :: insertStr x ys

/-- Insertion sort by Python string `<` — `sorted` on strings. -/
def sortStrs : List String → List String
  | [] => []
  | x :: xs => insertStr x (sortStrs xs)

/-- `list(sorted(emails))` for a `set` accumulated in insertion order:
deduplicate, then sort lexicographically. -/
def pySortedSet (l : List String) : List String := sortStrs (dedupFirst [] l)

/-- `extract_emails(soup)`: union of the `mailto:` addresses and the
visible-text matches, sorted and deduplicated; the `_visible_texts`
call mutates the soup, so the mutated tree is returned as well. -/
def extract_emails (t : Node) : List String × Node :=
  let vt := visible_texts t
  (pySortedSet (mailtoEmails t ++ textEmails vt.1), vt.2)

/-! ## PhoneExtractor: `extract_phones` and `_normalize_phone` -/

/-- A phone candidate: `{"original": ..., "normalized": ...}`. -/
structure PhoneCand where
  original : String
  normalized : String
deriving DecidableEq

/-- `_normalize_phone(num_str)`, parameterized by the `phonenumbers`
collaborator: `parse raw region` returns `none` exactly when
`phonenumbers.parse` raises; `isPossible` is `is_possible_number`;
`fmtE164` is `format_number(..., E164)`.  When the stripped input starts
with `+` it is parsed region-agnostically, else with default region
`"IN"`; if parsing fails or the number is not possible, the digits-only
fallback is returned. -/
def normalize_phone {P : Type} (parse : String → Option String → Option P)
    (isPossible : P → Bool) (fmtE164 : P → String) (num : String) : String :=
  let s := pyStrip num
  let parsed := if startsWithP s "+" then parse s none else parse s (some "IN")
  match parsed with
  | some p => if isPossible p then fmtE164 p else digitsOnly s
  | none => digitsOnly s

/-- One step of the `tel:` anchor loop: state is `(phones, seen)`. -/
def telStep {P : Type} (parse : String → Option String → Option P)
    (isPossible : P → Bool) (fmtE164 : P → String)
    (st : List PhoneCand × List String) (p : Node × List Node) :
    List PhoneCand × List String :=
  let href := attrD p.1 "href"
  if startsWithP (lowerS href) "tel:" then
    let num := beforeQuery (afterColon href)
    if is_hidden p.2 p.1 then st
    else
      let norm := normalize_phone parse isPossible fmtE164 num
      if st.2.contains num then st
      else (st.1 ++ [⟨num, norm⟩], num :: st.2)
  else st

/-- One step of the visible-text loop: the source iterates over
`PHONE_RE.findall(txt)` but processes `PHONE_RE.search(txt)` — the first
match — on each iteration, so each fragment contributes its first match
at most once (see `phoneFirstMatch`); a match is dropped when its
digits-only form has fewer than 7 digits, when its original string was
already seen, or when the fragment's parent is hidden. -/
def textPhoneStep {P : Type} (parse : String → Option String → Option P)
    (isPossible : P → Bool) (fmtE164 : P → String)
    (st : List PhoneCand × List String) (f : Frag) :
    List PhoneCand × List String :=
  match phoneFirstMatch f.txt.toList with
  | none => st
  | some m =>
    let num := pyStrip ⟨m⟩
    if (digitsOnly num).toList.length < 7 then st
    else if st.2.contains num then st
    else if fragHidden f then st
    else (st.1 ++ [⟨num, normalize_phone parse isPossible fmtE164 num⟩], num :: st.2)

/-- `extract_phones(soup)`: `tel:` anchors first, then visible-text
matches, sharing one `seen` set keyed by the original string; the
`_visible_texts` call mutates the soup. -/
def extract_phones {P : Type} (parse : String → Option String → Option P)
    (isPossible : P → Bool) (fmtE164 : P → String) (t : Node) :
    List PhoneCand × Node :=
  let st1 := (findAllTag t "a").foldl (telStep parse isPossible fmtE164) ([], [])
  let vt := visible_texts t
  ((vt.1.foldl (textPhoneStep parse isPossible fmtE164) st1).1, vt.2)

/-! ## NameCandidateExtractor: `extract_name_candidates` -/

/-- A name candidate; `confidence` is in integer hundredths (see the
file header: the source's float constants are order-isomorphic to the
hundredths 90, 50, 70, 60, 75, 80, `min 95 (base + 25)`). -/
structure NameCand where
  name : String
  confidence : Nat
  reason : String
deriving DecidableEq

/-- `add_candidate(name, confidence, reason)` — the name is stripped. -/
def mkCand (name : String) (conf : Nat) (reason : String) : NameCand :=
  ⟨pyStrip name, conf, reason⟩

/-- Pass 1, meta author: `soup.find('meta', attrs={'name': 'author'})`
with a truthy `content` attribute. -/
def metaAuthorPass (t : Node) : List NameCand :=
  match ((allNodesWA t).filter
      (fun p => isTag p.1 "meta" && attrGet p.1 "name" == some "author")).head? with
  | some p =>
    let content := attrD p.1 "content"
    if content == "" then [] else [mkCand content 90 "meta[name=author]"]
  | none => []

/-- The separator class of `re.split(r"[|\-–—]\s*", title)`. -/
def isTitleSep (c : Char) : Bool := c == '|' || c == '-' || c == '–' || c == '—'

/-- `re.split(r"[|\-–—]\s*", title)[0]`: the prefix before the first
separator character (the `\s*` only shapes the later parts). -/
def titleFirstPart (s : String) : String :=
  ⟨s.toList.takeWhile (fun c => !isTitleSep c)⟩

/-- `soup.title.string if soup.title and soup.title.string else None`. -/
def soupTitle (t : Node) : Option String :=
  match (findAllTag t "title").head? with
  | some p => nodeString p.1
  | none => none

/-- Pass 2, page title: the first part of the title at confidence 0.50
(`re.split` always returns a non-empty list, so `if parts:` holds). -/
def titlePass (t : Node) : List NameCand :=
  match soupTitle t with
  | some ti => if ti == "" then [] else [mkCand (titleFirstPart ti) 50 "title (first part)"]
  | none => []

/-- The "contact nodes": parents of `mailto:`/`tel:` anchors, each with
its own ancestor chain.  The source stores them in a `set` keyed by
bs4's structural equality, but the set is only ever tested for an
existential match, so the insertion-order list is equivalent. -/
def contactNodes (t : Node) : List (Node × List Node) :=
  (findAllTag t "a").filterMap (fun p =>
    let hl := lowerS (attrD p.1 "href")
    if startsWithP hl "mailto:" || startsWithP hl "tel:" then
      match p.2 with
      | par :: rest => some (par, rest)
      | [] => none
    else none)

/-- `cn == h.parent or cn in h.parents or h in cn.parents`, with bs4's
structural `==` (`nodeBEq`); `h`'s parents are `hanc`, `cn`'s parents
are `cn.2`. -/
def nearContact (cns : List (Node × List Node)) (h : Node) (hanc : List Node) : Bool :=
  cns.any (fun cn =>
    (match hanc with | hp :: _ => nodeBEq cn.1 hp | [] => false) ||
    hanc.any (fun p => nodeBEq p cn.1) ||
    cn.2.any (fun q => nodeBEq q h))

/-- Pass 3, headings `h1`..`h4` in that tag order: skip hidden or
text-empty headings; base confidence 0.70 for `h1` else 0.60, boosted to
`min(0.95, base + 0.25)` with reason `"<tag> near contact"` when the
heading is related to a contact node. -/
def headingCands (t : Node) : List NameCand :=
  let cns := contactNodes t
  ["h1", "h2", "h3", "h4"].flatMap (fun tag =>
    (findAllTag t tag).filterMap (fun p =>
      if is_hidden p.2 p.1 then none
      else
        let text := getTextSp p.1
        if text == "" then none
        else
          let base : Nat := if tag == "h1" then 70 else 60
          if nearContact cns p.1 p.2 then
            some (mkCand text (min 95 (base + 25)) (tag ++ " near contact"))
          else some (mkCand text base tag)))

/-- The keyword list of pass 4. -/
def nameKeys : List String := ["name", "author", "contact", "founder", "ceo", "person"]

/-- `soup.find_all(attrs={attr: re.compile(k, re.I)})` membership: the
attribute is present and contains `k` case-insensitively.  (For the
multi-valued `class` attribute bs4 matches the regex against each class
token and against the space-joined string; for the whitespace-free
keywords of `nameKeys` both are equivalent to a substring test on the
raw attribute value.) -/
def attrKeyMatch (n : Node) (attr k : String) : Bool :=
  match attrGet n attr with
  | some v => containsSub (lowerS v) k
  | none => false

/-- Pass 4, class/id keywords: for each keyword, all class matches then
all id matches; skip hidden elements; keep non-empty flattened text
under 60 characters; confidence 0.75 (class) / 0.80 (id). -/
def classIdCands (t : Node) : List NameCand :=
  nameKeys.flatMap (fun k =>
    ((allNodesWA t).filterMap (fun p =>
      if attrKeyMatch p.1 "class" k then
        if is_hidden p.2 p.1 then none
        else
          let text := getTextSp p.1
          if text != "" && text.toList.length < 60 then
            some (mkCand text 75 ("class contains " ++ k))
          else none
      else none)) ++
    ((allNodesWA t).filterMap (fun p =>
      if attrKeyMatch p.1 "id" k then
        if is_hidden p.2 p.1 then none
        else
          let text := getTextSp p.1
          if text != "" && text.toList.length < 60 then
            some (mkCand text 80 ("id contains " ++ k))
          else none
      else none)))

/-- All raw candidates, in accumulation order. -/
def rawNameCands (t : Node) : List NameCand :=
  metaAuthorPass t ++ titlePass t ++ headingCands t ++ classIdCands t

/-- Stable insertion of a candidate into a descending-confidence list:
walk past strictly greater confidences only, so earlier elements win
ties — `sorted(candidates, key=lambda x: -x['confidence'])` is the
stable sort by descending confidence. -/
def insertCand (c : NameCand) : List NameCand → List NameCand
  | [] => [c]
  | d :: ds => if c.confidence < d.confidence then d :: insertCand c ds else c :: d :: ds

/-- Stable sort by descending confidence. -/
def sortCands : List NameCand → List NameCand
  | [] => []
  | c :: cs => insertCand c (sortCands cs)

/-- The final dedup loop: normalize each name by collapsing whitespace,
drop empty names, keep the first occurrence of each normalized name. -/
def dedupeCands (seen : List String) : List NameCand → List NameCand
  | [] => []
  | c :: cs =>
    let n := collapseWs c.name
    if n == "" || seen.contains n then dedupeCands seen cs
    else c :: dedupeCands (n :: seen) cs

/-- `extract_name_candidates(soup)`. -/
def extract_name_candidates (t : Node) : List NameCand :=
  dedupeCands [] (sortCands (rawNameCands t))

/-! ## ResultAggregator: the body of `crawl_url` after fetch/parse -/

/-- The result record returned by `crawl_url`. -/
structure CrawlResult where
  url : String
  socials : List String
  emails : List String
  phones : List PhoneCand
  name_candidates : List NameCand
  notes : List String
deriving DecidableEq

/-- The extraction pipeline of `crawl_url` (after fetch, parse and
template removal): socials, emails, phones, names, then the empty-result
note.  `extract_emails` and `extract_phones` each mutate the soup via
`_visible_texts`, so the tree is threaded through and the final mutated
tree returned. -/
def extractAll {P : Type} (resolve : String → String → String)
    (parse : String → Option String → Option P) (isPossible : P → Bool)
    (fmtE164 : P → String) (t : Node) (finalUrl : String) : CrawlResult × Node :=
  let socials := extract_socials resolve finalUrl t
  let em := extract_emails t
  let ph := extract_phones parse isPossible fmtE164 em.2
  let names := extract_name_candidates ph.2
  let notes :=
    if em.1.isEmpty && ph.1.isEmpty && socials.isEmpty then
      ["no contact items found (page may be JS-heavy or require interaction)"]
    else []
  (⟨finalUrl, socials, em.1, ph.1, names, notes⟩, ph.2)

/-- `crawl_url` on an already fetched and parsed document: remove
`template` subtrees, then run the pipeline. -/
def crawl_doc {P : Type} (resolve : String → String → String)
    (parse : String → Option String → Option P) (isPossible : P → Bool)
    (fmtE164 : P → String) (t : Node) (finalUrl : String) : CrawlResult × Node :=
  extractAll resolve parse isPossible fmtE164 (removeTagsN ["template"] t) finalUrl

/-! ## Concrete instances for evaluation

A collaborator whose phone parser always fails (raises), an identity
resolver (what `urljoin` returns for absolute hrefs), and the small
documents the spec's examples describe. -/

/-- A `phonenumbers.parse` stand-in that always raises. -/
def parseNever : String → Option String → Option String := fun _ _ => none

/-- `urljoin` restricted to absolute hrefs returns the href itself. -/
def resolveKeep : String → String → String := fun _ href => href

/-- `<meta name="author" content="Jane Doe">` and `<h1>Jane Doe</h1>`. -/
def janeDoc : Node := el "[document]" [] [
  el "meta" [("name", "author"), ("content", "Jane Doe")] [],
  el "h1" [] [Node.text "Jane Doe"]]

/-- `<a href="mailto:a@b.com">x</a><p>a@b.com c@d.org</p>`. -/
def emailDoc : Node := el "[document]" [] [
  el "a" [("href", "mailto:a@b.com")] [Node.text "x"],
  el "p" [] [Node.text "a@b.com c@d.org"]]

/-- A social link inside `<noscript>`: visible to the first pipeline run,
removed from the soup by its `_visible_texts` mutation. -/
def noscriptDoc : Node := el "[document]" [] [
  el "noscript" [] [el "a" [("href", "https://linkedin.com/in/x")] [Node.text "l"]]]

/-- `<title>Jane Doe - Portfolio</title>`. -/
def titleDoc : Node := el "[document]" [] [
  el "head" [] [el "title" [] [Node.text "Jane Doe - Portfolio"]]]

/-- A hidden social anchor, a duplicate visible one, and a second domain. -/
def socialDoc : Node := el "[document]" [] [
  el "div" [("hidden", "")] [el "a" [("href", "https://linkedin.com/in/a")] []],
  el "a" [("href", "https://linkedin.com/in/a")] [],
  el "a" [("href", "https://facebook.com/b")] []]

/-- A `tel:` anchor with an empty address (zero digits). -/
def telDoc : Node := el "[document]" [] [
  el "a" [("href", "tel:")] [Node.text "call"]]

/-- A visible text fragment holding an 8-digit phone-shaped token. -/
def textPhoneDoc : Node := el "[document]" [] [
  el "p" [] [Node.text "id 12345678"]]

/-- A `mailto:` href whose address continues past the pattern match
(`!!` is outside every `EMAIL_RE` character class). -/
def mailtoDoc : Node := el "[document]" [] [
  el "a" [("href", "mailto:a@b.com!!?subject=hi")] [Node.text "m"]]

/-- A `template` element with hidden-free attributes, and a child. -/
def templateNode : Node := el "template" [] [Node.text "x"]

/-! # Theorems

General lemmas first (list utilities, the dedup/sort loops, the phone
folds), then one theorem per claim with its witness. -/

/-- `List.contains` on strings decides membership. -/
theorem containsStr_iff (l : List String) (x : String) :
    l.contains x = true ↔ x ∈ l := by
  simp [List.contains, List.elem_iff]

/-- Membership in the first-occurrence dedup loop. -/
theorem mem_dedupFirst : ∀ (l seen : List String) (x : String),
    x ∈ dedupFirst seen l ↔ (x ∈ l ∧ x ∉ seen)
  | [], seen, x => by simp [dedupFirst]
  | u :: us, seen, x => by
    rw [dedupFirst]
    by_cases hu : u ∈ seen
    · rw [if_pos ((containsStr_iff _ _).2 hu)]
      rw [mem_dedupFirst us seen x]
      constructor
      · exact fun h => ⟨List.mem_cons_of_mem _ h.1, h.2⟩
      · rintro ⟨hx, hns⟩
        rcases List.mem_cons.1 hx with rfl | hx
        · exact absurd hu hns
        · exact ⟨hx, hns⟩
    · rw [if_neg (by simpa using (fun h => hu ((containsStr_iff _ _).1 h)))]
      rw [List.mem_cons, mem_dedupFirst us (u :: seen) x]
      constructor
      · rintro (rfl | ⟨hx, hns⟩)
        · exact ⟨List.mem_cons_self _ _, hu⟩
        · exact ⟨List.mem_cons_of_mem _ hx, fun h => hns (List.mem_cons_of_mem _ h)⟩
      · rintro ⟨hx, hns⟩
        rcases List.mem_cons.1 hx with rfl | hx
        · exact Or.inl rfl
        · by_cases hxu : x = u
          · exact Or.inl hxu
          · exact Or.inr ⟨hx, by simp [List.mem_cons, hxu, hns]⟩

/-- The dedup loop yields a sublist (order is preserved). -/
theorem dedupFirst_sublist : ∀ (l seen : List String),
    (dedupFirst seen l).Sublist l
  | [], _ => by simp [dedupFirst]
  | u :: us, seen => by
    rw [dedupFirst]
    by_cases hu : seen.contains u
    · rw [if_pos hu]
      exact (dedupFirst_sublist us seen).cons u
    · rw [if_neg hu]
      exact (dedupFirst_sublist us (u :: seen)).cons₂ u

/-- The dedup loop removes duplicates. -/
theorem dedupFirst_nodup : ∀ (l seen : List String), (dedupFirst seen l).Nodup
  | [], _ => by simp [dedupFirst]
  | u :: us, seen => by
    rw [dedupFirst]
    by_cases hu : seen.contains u
    · rw [if_pos hu]; exact dedupFirst_nodup us seen
    · rw [if_neg hu]
      refine List.nodup_cons.2 ⟨fun hmem => ?_, dedupFirst_nodup us (u :: seen)⟩
      exact ((mem_dedupFirst _ _ _).1 hmem).2 (List.mem_cons_self _ _)

/-- Relative order of first occurrences survives the dedup loop. -/
theorem dedupFirst_indexOf : ∀ (l seen : List String) (u v : String),
    u ∈ dedupFirst seen l → v ∈ dedupFirst seen l →
    List.indexOf u l ≤ List.indexOf v l →
    List.indexOf u (dedupFirst seen l) ≤ List.indexOf v (dedupFirst seen l)
  | [], _, u, _, hu, _, _ => by simp [dedupFirst] at hu
  | w :: ws, seen, u, v, hu, hv, h => by
    rw [dedupFirst] at hu hv ⊢
    by_cases hw : seen.contains w
    · rw [if_pos hw] at hu hv ⊢
      have hwseen : w ∈ seen := (containsStr_iff _ _).1 hw
      have hune : u ≠ w := fun he => ((mem_dedupFirst _ _ _).1 hu).2 (he ▸ hwseen)
      have hvne : v ≠ w := fun he => ((mem_dedupFirst _ _ _).1 hv).2 (he ▸ hwseen)
      refine dedupFirst_indexOf ws seen u v hu hv ?_
      rw [List.indexOf_cons_ne _ (Ne.symm hune), List.indexOf_cons_ne _ (Ne.symm hvne)] at h
      exact Nat.succ_le_succ_iff.1 h
    · rw [if_neg hw] at hu hv ⊢
      rcases List.mem_cons.1 hu with rfl | hu'
      · simp [List.indexOf_cons_self]
      · have hune : u ≠ w :=
          fun he => ((mem_dedupFirst _ _ _).1 hu').2 (he ▸ List.mem_cons_self _ _)
        rcases List.mem_cons.1 hv with rfl | hv'
        · exfalso
          rw [List.indexOf_cons_ne _ (Ne.symm hune), List.indexOf_cons_self] at h
          exact Nat.not_succ_le_zero _ h
        · have hvne : v ≠ w :=
            fun he => ((mem_dedupFirst _ _ _).1 hv').2 (he ▸ List.mem_cons_self _ _)
          rw [List.indexOf_cons_ne _ (Ne.symm hune), List.indexOf_cons_ne _ (Ne.symm hvne)] at h
          rw [List.indexOf_cons_ne _ (Ne.symm hune), List.indexOf_cons_ne _ (Ne.symm hvne)]
          exact Nat.succ_le_succ
            (dedupFirst_indexOf ws (w :: seen) u v hu' hv' (Nat.succ_le_succ_iff.1 h))

/-- `strLtL` is asymmetric. -/
theorem strLtL_asymm : ∀ a b : List Char, strLtL a b = true → strLtL b a = false
  | [], [], h => by simp [strLtL] at h
  | [], _ :: _, _ => by simp [strLtL]
  | _ :: _, [], h => by simp [strLtL] at h
  | x :: xs, y :: ys, h => by
    rw [strLtL] at h ⊢
    by_cases hxy : x.toNat < y.toNat
    · rw [if_neg (Nat.lt_asymm hxy), if_pos hxy]
    · rw [if_neg hxy] at h
      by_cases hyx : y.toNat < x.toNat
      · rw [if_pos hyx] at h; exact absurd h (by simp)
      · rw [if_neg hyx] at h
        rw [if_neg hyx, if_neg hxy]
        exact strLtL_asymm xs ys h

/-- Two characters with equal code points are equal. -/
theorem charToNat_inj {a b : Char} (h : a.toNat = b.toNat) : a = b :=
  Char.ext (UInt32.ext h)

/-- `strLtL` is connex: mutually non-less lists are equal. -/
theorem strLtL_connex : ∀ a b : List Char,
    strLtL a b = false → strLtL b a = false → a = b
  | [], [], _, _ => rfl
  | [], _ :: _, h, _ => by simp [strLtL] at h
  | _ :: _, [], _, h => by simp [strLtL] at h
  | x :: xs, y :: ys, h1, h2 => by
    rw [strLtL] at h1 h2
    by_cases hxy : x.toNat < y.toNat
    · rw [if_pos hxy] at h1; exact absurd h1 (by simp)
    · by_cases hyx : y.toNat < x.toNat
      · rw [if_pos hyx] at h2; exact absurd h2 (by simp)
      · rw [if_neg hxy, if_neg hyx] at h1
        rw [if_neg hyx, if_neg hxy] at h2
        have hx : x = y := charToNat_inj (Nat.le_antisymm (Nat.not_lt.1 hyx) (Nat.not_lt.1 hxy))
        rw [hx, strLtL_connex xs ys h1 h2]

/-- `strLtL` is transitive. -/
theorem strLtL_trans : ∀ a b c : List Char,
    strLtL a b = true → strLtL b c = true → strLtL a c = true
  | [], _, _ :: _, _, _ => by simp [strLtL]
  | [], b, [], _, h2 => by cases b <;> simp [strLtL] at h2
  | _ :: _, b, [], _, h2 => by cases b <;> simp [strLtL] at h2
  | _ :: _, [], _ :: _, h1, _ => by simp [strLtL] at h1
  | x :: xs, y :: ys, z :: zs, h1, h2 => by
    rw [strLtL] at h1 h2 ⊢
    by_cases hxy : x.toNat < y.toNat
    · by_cases hyz : y.toNat < z.toNat
      · rw [if_pos (Nat.lt_trans hxy hyz)]
      · rw [if_neg hyz] at h2
        by_cases hzy : z.toNat < y.toNat
        · rw [if_pos hzy] at h2; exact absurd h2 (by simp)
        · have : y = z := charToNat_inj (Nat.le_antisymm (Nat.not_lt.1 hzy) (Nat.not_lt.1 hyz))
          subst this
          rw [if_pos hxy]
    · rw [if_neg hxy] at h1
      by_cases hyx : y.toNat < x.toNat
      · rw [if_pos hyx] at h1; exact absurd h1 (by simp)
      · rw [if_neg hyx] at h1
        have hx : x = y := charToNat_inj (Nat.le_antisymm (Nat.not_lt.1 hyx) (Nat.not_lt.1 hxy))
        subst hx
        by_cases hxz : x.toNat < z.toNat
        · rw [if_pos hxz]
        · rw [if_neg hxz] at h2 ⊢
          by_cases hzx : z.toNat < x.toNat
          · rw [if_pos hzx] at h2; exact absurd h2 (by simp)
          · rw [if_neg hzx] at h2 ⊢
            exact strLtL_trans xs ys zs h1 h2

/-- Membership through sorted insertion. -/
theorem mem_insertStr : ∀ (l : List String) (x y : String),
    x ∈ insertStr y l ↔ x = y ∨ x ∈ l
  | [], x, y => by simp [insertStr]
  | z :: zs, x, y => by
    rw [insertStr]
    by_cases h : strLt y z
    · rw [if_pos h]; simp
    · rw [if_neg h]
      rw [List.mem_cons, mem_insertStr zs x y, List.mem_cons]
      tauto

/-- Sorted insertion is a permutation of consing. -/
theorem insertStr_perm : ∀ (l : List String) (y : String),
    (insertStr y l).Perm (y :: l)
  | [], y => by simp [insertStr]
  | z :: zs, y => by
    rw [insertStr]
    by_cases h : strLt y z
    · rw [if_pos h]
    · rw [if_neg h]
      exact ((insertStr_perm zs y).cons z).trans (List.Perm.swap y z zs)

/-- The insertion sort permutes its input. -/
theorem sortStrs_perm : ∀ l : List String, (sortStrs l).Perm l
  | [] => by simp [sortStrs]
  | x :: xs => by
    rw [sortStrs]
    exact (insertStr_perm (sortStrs xs) x).trans ((sortStrs_perm xs).cons x)

/-- Sorted insertion preserves non-decreasing order. -/
theorem insertStr_pairwise : ∀ (l : List String) (y : String),
    l.Pairwise (fun a b => strLt b a = false) →
    (insertStr y l).Pairwise (fun a b => strLt b a = false)
  | [], y, _ => by simp [insertStr]
  | z :: zs, y, h => by
    rcases List.pairwise_cons.1 h with ⟨hz, hzs⟩
    rw [insertStr]
    by_cases hyz : strLt y z
    · rw [if_pos hyz]
      refine List.pairwise_cons.2 ⟨?_, h⟩
      intro w hw
      rcases List.mem_cons.1 hw with rfl | hw
      · exact strLtL_asymm _ _ hyz
      · by_contra hwy
        have hwy' : strLt w y = true := by
          cases hcb : strLt w y
          · exact absurd hcb hwy
          · rfl
        have hwz : strLt w z = true := strLtL_trans _ _ _ hwy' hyz
        exact absurd (hz w hw) (by simp [hwz])
    · rw [if_neg hyz]
      refine List.pairwise_cons.2 ⟨?_, insertStr_pairwise zs y hzs⟩
      intro w hw
      rcases (mem_insertStr zs w y).1 hw with rfl | hw
      · exact Bool.not_eq_true _ ▸ (by simpa using hyz)
      · exact hz w hw

/-- The insertion sort is non-decreasingly sorted. -/
theorem sortStrs_pairwise : ∀ l : List String,
    (sortStrs l).Pairwise (fun a b => strLt b a = false)
  | [] => by simp [sortStrs]
  | x :: xs => insertStr_pairwise _ x (sortStrs_pairwise xs)

/-- Membership in `pySortedSet`. -/
theorem mem_pySortedSet (l : List String) (x : String) :
    x ∈ pySortedSet l ↔ x ∈ l := by
  rw [pySortedSet]
  rw [(sortStrs_perm _).mem_iff, mem_dedupFirst]
  simp

/-- `pySortedSet` has no duplicates. -/
theorem pySortedSet_nodup (l : List String) : (pySortedSet l).Nodup := by
  rw [pySortedSet]
  exact ((sortStrs_perm _).nodup_iff).2 (dedupFirst_nodup _ _)

/-- `pySortedSet` is strictly sorted by Python string `<`. -/
theorem pySortedSet_sorted (l : List String) :
    (pySortedSet l).Pairwise (fun a b => strLt a b = true) := by
  have hle := sortStrs_pairwise (dedupFirst [] l)
  have hne : (pySortedSet l).Pairwise (fun a b => a ≠ b) := pySortedSet_nodup l
  rw [pySortedSet] at hne ⊢
  refine ((List.pairwise_and_iff).2 ⟨hle, hne⟩).imp ?_
  rintro a b ⟨hab, hne'⟩
  cases hcb : strLt a b
  · exfalso
    apply hne'
    have h2 : a.toList = b.toList := strLtL_connex _ _ hcb hab
    cases a; cases b
    simp only [String.toList] at h2
    exact congrArg String.mk h2
  · rfl

/-- Candidate insertion permutes consing. -/
theorem insertCand_perm : ∀ (l : List NameCand) (c : NameCand),
    (insertCand c l).Perm (c :: l)
  | [], c => by simp [insertCand]
  | d :: ds, c => by
    rw [insertCand]
    by_cases h : c.confidence < d.confidence
    · rw [if_pos h]
      exact ((insertCand_perm ds c).cons d).trans (List.Perm.swap c d ds)
    · rw [if_neg h]

/-- The candidate sort permutes its input. -/
theorem sortCands_perm : ∀ l : List NameCand, (sortCands l).Perm l
  | [] => by simp [sortCands]
  | c :: cs => by
    rw [sortCands]
    exact (insertCand_perm (sortCands cs) c).trans ((sortCands_perm cs).cons c)

/-- Candidate insertion preserves descending confidence order. -/
theorem insertCand_pairwise : ∀ (l : List NameCand) (c : NameCand),
    l.Pairwise (fun a b => b.confidence ≤ a.confidence) →
    (insertCand c l).Pairwise (fun a b => b.confidence ≤ a.confidence)
  | [], c, _ => by simp [insertCand]
  | d :: ds, c, h => by
    rcases List.pairwise_cons.1 h with ⟨hd, hds⟩
    rw [insertCand]
    by_cases hcd : c.confidence < d.confidence
    · rw [if_pos hcd]
      refine List.pairwise_cons.2 ⟨?_, insertCand_pairwise ds c hds⟩
      intro w hw
      rcases List.mem_cons.1 ((insertCand_perm ds c).mem_iff.1 hw) with rfl | hw'
      · exact Nat.le_of_lt hcd
      · exact hd w hw'
    · rw [if_neg hcd]
      refine List.pairwise_cons.2 ⟨?_, List.pairwise_cons.2 ⟨hd, hds⟩⟩
      intro w hw
      rcases List.mem_cons.1 hw with rfl | hw'
      · exact Nat.le_of_not_lt hcd
      · exact Nat.le_trans (hd w hw') (Nat.le_of_not_lt hcd)

/-- The candidate sort is descending in confidence. -/
theorem sortCands_pairwise : ∀ l : List NameCand,
    (sortCands l).Pairwise (fun a b => b.confidence ≤ a.confidence)
  | [] => by simp [sortCands]
  | c :: cs => insertCand_pairwise _ c (sortCands_pairwise cs)

/-- Stability of candidate insertion, characterized by filters: the
subsequence at any fixed confidence is unchanged. -/
theorem insertCand_filter : ∀ (l : List NameCand) (c : NameCand) (q : Nat),
    (insertCand c l).filter (fun x => x.confidence == q) =
      (c :: l).filter (fun x => x.confidence == q)
  | [], _, _ => by simp [insertCand]
  | d :: ds, c, q => by
    rw [insertCand]
    by_cases hcd : c.confidence < d.confidence
    · rw [if_pos hcd]
      by_cases hdq : d.confidence = q
      · have hcq : (c.confidence == q) = false :=
          beq_eq_false_iff_ne.2 (Nat.ne_of_lt (hdq ▸ hcd))
        simp only [List.filter_cons, hcq, beq_iff_eq, hdq, if_pos rfl, if_true]
        rw [insertCand_filter ds c q]
        simp [List.filter_cons, hcq]
      · have hdq' : (d.confidence == q) = false := beq_eq_false_iff_ne.2 hdq
        simp only [List.filter_cons, hdq', if_false]
        rw [insertCand_filter ds c q]
        simp [List.filter_cons, hdq']
    · rw [if_neg hcd]

/-- Stability of the candidate sort: Python's `sorted` is stable, and a
stable descending-confidence sort is characterized by preserving the
relative order of candidates at each confidence value. -/
theorem sortCands_filter : ∀ (l : List NameCand) (q : Nat),
    (sortCands l).filter (fun x => x.confidence == q) =
      l.filter (fun x => x.confidence == q)
  | [], _ => by simp [sortCands]
  | c :: cs, q => by
    rw [sortCands, insertCand_filter _ c q]
    simp only [List.filter_cons]
    rw [sortCands_filter cs q]

/-- The dedup loop yields a sublist. -/
theorem dedupeCands_sublist : ∀ (l : List NameCand) (seen : List String),
    (dedupeCands seen l).Sublist l
  | [], _ => by simp [dedupeCands]
  | c :: cs, seen => by
    rw [dedupeCands]
    by_cases h : (collapseWs c.name == "" || seen.contains (collapseWs c.name)) = true
    · rw [if_pos h]
      exact (dedupeCands_sublist cs seen).cons c
    · rw [if_neg h]
      exact (dedupeCands_sublist cs _).cons₂ c

/-- Members of the dedup loop's output come from the input, have a
non-empty normalized name, and a name not in `seen`. -/
theorem mem_dedupeCands : ∀ (l : List NameCand) (seen : List String) (c : NameCand),
    c ∈ dedupeCands seen l →
    c ∈ l ∧ collapseWs c.name ≠ "" ∧ collapseWs c.name ∉ seen
  | [], seen, c, hc => by simp [dedupeCands] at hc
  | d :: ds, seen, c, hc => by
    rw [dedupeCands] at hc
    by_cases h : (collapseWs d.name == "" || seen.contains (collapseWs d.name)) = true
    · rw [if_pos h] at hc
      obtain ⟨h1, h2, h3⟩ := mem_dedupeCands ds seen c hc
      exact ⟨List.mem_cons_of_mem _ h1, h2, h3⟩
    · rw [if_neg h] at hc
      rcases List.mem_cons.1 hc with rfl | hc'
      · refine ⟨List.mem_cons_self _ _, ?_, ?_⟩
        · intro he
          exact h (by simp [he])
        · intro hs
          exact h (by simp [hs])
      · obtain ⟨h1, h2, h3⟩ := mem_dedupeCands ds _ c hc'
        exact ⟨List.mem_cons_of_mem _ h1, h2,
          fun hs => h3 (List.mem_cons_of_mem _ hs)⟩

/-- The normalized names in the dedup loop's output are distinct. -/
theorem dedupeCands_keys_nodup : ∀ (l : List NameCand) (seen : List String),
    ((dedupeCands seen l).map (fun c => collapseWs c.name)).Nodup
  | [], _ => by simp [dedupeCands]
  | d :: ds, seen => by
    rw [dedupeCands]
    by_cases h : (collapseWs d.name == "" || seen.contains (collapseWs d.name)) = true
    · rw [if_pos h]
      exact dedupeCands_keys_nodup ds seen
    · rw [if_neg h]
      rw [List.map_cons, List.nodup_cons]
      refine ⟨fun hmem => ?_, dedupeCands_keys_nodup ds _⟩
      obtain ⟨e, he, hkey⟩ := List.mem_map.1 hmem
      exact (mem_dedupeCands ds _ e he).2.2 (hkey ▸ List.mem_cons_self _ _)

/-- On a descending-confidence list, the dedup loop keeps, for each
normalized name, an instance of maximal confidence. -/
theorem dedupeCands_max : ∀ (l : List NameCand) (seen : List String) (c : NameCand),
    l.Pairwise (fun a b => b.confidence ≤ a.confidence) →
    c ∈ dedupeCands seen l →
    ∀ d ∈ l, collapseWs d.name = collapseWs c.name → d.confidence ≤ c.confidence
  | [], _, _, _, hc => by simp [dedupeCands] at hc
  | x :: xs, seen, c, hp, hc => by
    rcases List.pairwise_cons.1 hp with ⟨hx, hxs⟩
    rw [dedupeCands] at hc
    by_cases h : (collapseWs x.name == "" || seen.contains (collapseWs x.name)) = true
    · rw [if_pos h] at hc
      intro d hd hdc
      rcases List.mem_cons.1 hd with rfl | hd'
      · exfalso
        obtain ⟨_, hne, hns⟩ := mem_dedupeCands xs seen c hc
        rcases (by simpa [containsStr_iff] using h :
            collapseWs d.name = "" ∨ collapseWs d.name ∈ seen) with he | hs
        · exact hne (hdc ▸ he)
        · exact hns (hdc ▸ hs)
      · exact dedupeCands_max xs seen c hxs hc d hd' hdc
    · rw [if_neg h] at hc
      rcases List.mem_cons.1 hc with rfl | hc'
      · intro d hd hdc
        rcases List.mem_cons.1 hd with rfl | hd'
        · exact Nat.le_refl _
        · exact hx d hd'
      · intro d hd hdc
        rcases List.mem_cons.1 hd with rfl | hd'
        · exfalso
          obtain ⟨_, _, hns⟩ := mem_dedupeCands xs _ c hc'
          exact hns (hdc ▸ List.mem_cons_self _ _)
        · exact dedupeCands_max xs _ c hxs hc' d hd' hdc

/-- Every input candidate with a non-empty, unseen normalized name is
represented in the dedup loop's output. -/
theorem dedupeCands_complete : ∀ (l : List NameCand) (seen : List String) (d : NameCand),
    d ∈ l → collapseWs d.name ≠ "" → collapseWs d.name ∉ seen →
    ∃ c ∈ dedupeCands seen l, collapseWs c.name = collapseWs d.name
  | [], _, _, hd, _, _ => by simp at hd
  | x :: xs, seen, d, hd, hne, hns => by
    rw [dedupeCands]
    by_cases h : (collapseWs x.name == "" || seen.contains (collapseWs x.name)) = true
    · rw [if_pos h]
      rcases List.mem_cons.1 hd with rfl | hd'
      · exfalso
        rcases (by simpa [containsStr_iff] using h :
            collapseWs d.name = "" ∨ collapseWs d.name ∈ seen) with he | hs
        · exact hne he
        · exact hns hs
      · exact dedupeCands_complete xs seen d hd' hne hns
    · rw [if_neg h]
      by_cases hxd : collapseWs x.name = collapseWs d.name
      · exact ⟨x, List.mem_cons_self _ _, hxd⟩
      · rcases List.mem_cons.1 hd with rfl | hd'
        · exact absurd rfl hxd
        · obtain ⟨c, hc, hcn⟩ := dedupeCands_complete xs (collapseWs x.name :: seen) d hd' hne
            (by
              intro hmem
              rcases List.mem_cons.1 hmem with he | hs
              · exact hxd he.symm
              · exact hns hs)
          exact ⟨c, List.mem_cons_of_mem _ hc, hcn⟩

/-- A candidate added by a visible-text step has at least 7 digits. -/
theorem mem_textPhoneStep {P : Type} (pp : String → Option String → Option P)
    (ip : P → Bool) (fm : P → String) (st : List PhoneCand × List String)
    (f : Frag) (c : PhoneCand) (hc : c ∈ (textPhoneStep pp ip fm st f).1) :
    c ∈ st.1 ∨ 7 ≤ (digitsOnly c.original).toList.length := by
  rw [textPhoneStep] at hc
  cases hm : phoneFirstMatch f.txt.toList with
  | none => rw [hm] at hc; exact Or.inl hc
  | some m =>
    rw [hm] at hc
    simp only at hc
    by_cases h1 : (digitsOnly (pyStrip ⟨m⟩)).toList.length < 7
    · rw [if_pos h1] at hc; exact Or.inl hc
    · rw [if_neg h1] at hc
      by_cases h2 : st.2.contains (pyStrip ⟨m⟩)
      · rw [if_pos h2] at hc; exact Or.inl hc
      · rw [if_neg h2] at hc
        by_cases h3 : fragHidden f
        · rw [if_pos h3] at hc; exact Or.inl hc
        · rw [if_neg h3] at hc
          rcases List.mem_append.1 hc with hin | hone
          · exact Or.inl hin
          · rcases List.mem_singleton.1 hone with rfl
            exact Or.inr (Nat.le_of_not_lt h1)

/-- Iterated visible-text steps only add candidates with ≥ 7 digits. -/
theorem textPhones_digits {P : Type} (pp : String → Option String → Option P)
    (ip : P → Bool) (fm : P → String) :
    ∀ (frags : List Frag) (st : List PhoneCand × List String) (c : PhoneCand),
    c ∈ (frags.foldl (textPhoneStep pp ip fm) st).1 →
    c ∈ st.1 ∨ 7 ≤ (digitsOnly c.original).toList.length
  | [], _, _, hc => Or.inl hc
  | f :: fs, st, c, hc => by
    rw [List.foldl_cons] at hc
    rcases textPhones_digits pp ip fm fs _ c hc with h | h
    · exact mem_textPhoneStep pp ip fm st f c h
    · exact Or.inr h

/-- A `tel:` step never removes phone candidates. -/
theorem telStep_mono_phones {P : Type} (pp : String → Option String → Option P)
    (ip : P → Bool) (fm : P → String) (st : List PhoneCand × List String)
    (p : Node × List Node) (c : PhoneCand) (hc : c ∈ st.1) :
    c ∈ (telStep pp ip fm st p).1 := by
  rw [telStep]
  by_cases h1 : startsWithP (lowerS (attrD p.1 "href")) "tel:"
  · rw [if_pos h1]
    by_cases h2 : is_hidden p.2 p.1
    · rw [if_pos h2]; exact hc
    · rw [if_neg h2]
      simp only
      by_cases h3 : st.2.contains (beforeQuery (afterColon (attrD p.1 "href")))
      · rw [if_pos h3]; exact hc
      · rw [if_neg h3]; exact List.mem_append_left _ hc
  · rw [if_neg h1]; exact hc

/-- A `tel:` step never removes seen originals. -/
theorem telStep_mono_seen {P : Type} (pp : String → Option String → Option P)
    (ip : P → Bool) (fm : P → String) (st : List PhoneCand × List String)
    (p : Node × List Node) (n : String) (hn : n ∈ st.2) :
    n ∈ (telStep pp ip fm st p).2 := by
  rw [telStep]
  by_cases h1 : startsWithP (lowerS (attrD p.1 "href")) "tel:"
  · rw [if_pos h1]
    by_cases h2 : is_hidden p.2 p.1
    · rw [if_pos h2]; exact hn
    · rw [if_neg h2]
      simp only
      by_cases h3 : st.2.contains (beforeQuery (afterColon (attrD p.1 "href")))
      · rw [if_pos h3]; exact hn
      · rw [if_neg h3]; exact List.mem_cons_of_mem _ hn
  · rw [if_neg h1]; exact hn

/-- A visible-text step never removes phone candidates. -/
theorem textPhoneStep_mono_phones {P : Type} (pp : String → Option String → Option P)
    (ip : P → Bool) (fm : P → String) (st : List PhoneCand × List String)
    (f : Frag) (c : PhoneCand) (hc : c ∈ st.1) :
    c ∈ (textPhoneStep pp ip fm st f).1 := by
  rw [textPhoneStep]
  cases hm : phoneFirstMatch f.txt.toList with
  | none => exact hc
  | some m =>
    simp only
    by_cases h1 : (digitsOnly (pyStrip ⟨m⟩)).toList.length < 7
    · rw [if_pos h1]; exact hc
    · rw [if_neg h1]
      by_cases h2 : st.2.contains (pyStrip ⟨m⟩)
      · rw [if_pos h2]; exact hc
      · rw [if_neg h2]
        by_cases h3 : fragHidden f
        · rw [if_pos h3]; exact hc
        · rw [if_neg h3]; exact List.mem_append_left _ hc

/-- Folding `tel:` steps never removes phone candidates. -/
theorem telFold_mono_phones {P : Type} (pp : String → Option String → Option P)
    (ip : P → Bool) (fm : P → String) :
    ∀ (l : List (Node × List Node)) (st : List PhoneCand × List String) (c : PhoneCand),
    c ∈ st.1 → c ∈ (l.foldl (telStep pp ip fm) st).1
  | [], _, _, hc => hc
  | p :: ps, st, c, hc => by
    rw [List.foldl_cons]
    exact telFold_mono_phones pp ip fm ps _ c (telStep_mono_phones pp ip fm st p c hc)

/-- Folding `tel:` steps never removes seen originals. -/
theorem telFold_mono_seen {P : Type} (pp : String → Option String → Option P)
    (ip : P → Bool) (fm : P → String) :
    ∀ (l : List (Node × List Node)) (st : List PhoneCand × List String) (n : String),
    n ∈ st.2 → n ∈ (l.foldl (telStep pp ip fm) st).2
  | [], _, _, hn => hn
  | p :: ps, st, n, hn => by
    rw [List.foldl_cons]
    exact telFold_mono_seen pp ip fm ps _ n (telStep_mono_seen pp ip fm st p n hn)

/-- Folding visible-text steps never removes phone candidates. -/
theorem textFold_mono_phones {P : Type} (pp : String → Option String → Option P)
    (ip : P → Bool) (fm : P → String) :
    ∀ (frags : List Frag) (st : List PhoneCand × List String) (c : PhoneCand),
    c ∈ st.1 → c ∈ (frags.foldl (textPhoneStep pp ip fm) st).1
  | [], _, _, hc => hc
  | f :: fs, st, c, hc => by
    rw [List.foldl_cons]
    exact textFold_mono_phones pp ip fm fs _ c (textPhoneStep_mono_phones pp ip fm st f c hc)

/-- A `tel:` step preserves the invariant that every seen original is
carried by some emitted candidate. -/
theorem telStep_inv {P : Type} (pp : String → Option String → Option P)
    (ip : P → Bool) (fm : P → String) (st : List PhoneCand × List String)
    (p : Node × List Node)
    (h : ∀ n ∈ st.2, ∃ c ∈ st.1, c.original = n) :
    ∀ n ∈ (telStep pp ip fm st p).2, ∃ c ∈ (telStep pp ip fm st p).1, c.original = n := by
  rw [telStep]
  by_cases h1 : startsWithP (lowerS (attrD p.1 "href")) "tel:"
  · rw [if_pos h1]
    by_cases h2 : is_hidden p.2 p.1
    · rw [if_pos h2]; exact h
    · rw [if_neg h2]
      simp only
      by_cases h3 : st.2.contains (beforeQuery (afterColon (attrD p.1 "href")))
      · rw [if_pos h3]; exact h
      · rw [if_neg h3]
        intro n hn
        rcases List.mem_cons.1 hn with rfl | hn'
        · exact ⟨_, List.mem_append_right _ (List.mem_singleton_self _), rfl⟩
        · obtain ⟨c, hc, hco⟩ := h n hn'
          exact ⟨c, List.mem_append_left _ hc, hco⟩
  · rw [if_neg h1]; exact h

/-- The fold over anchors preserves the seen-to-candidate invariant. -/
theorem telFold_inv {P : Type} (pp : String → Option String → Option P)
    (ip : P → Bool) (fm : P → String) :
    ∀ (l : List (Node × List Node)) (st : List PhoneCand × List String),
    (∀ n ∈ st.2, ∃ c ∈ st.1, c.original = n) →
    ∀ n ∈ (l.foldl (telStep pp ip fm) st).2,
      ∃ c ∈ (l.foldl (telStep pp ip fm) st).1, c.original = n
  | [], _, h => h
  | p :: ps, st, h => by
    rw [List.foldl_cons]
    exact telFold_inv pp ip fm ps _ (telStep_inv pp ip fm st p h)

/-- A non-hidden `tel:` anchor marks its address as seen. -/
theorem telFold_seen {P : Type} (pp : String → Option String → Option P)
    (ip : P → Bool) (fm : P → String) :
    ∀ (l : List (Node × List Node)) (st : List PhoneCand × List String)
      (p : Node × List Node), p ∈ l →
    startsWithP (lowerS (attrD p.1 "href")) "tel:" = true →
    is_hidden p.2 p.1 = false →
    beforeQuery (afterColon (attrD p.1 "href")) ∈ (l.foldl (telStep pp ip fm) st).2
  | [], _, _, hp, _, _ => by simp at hp
  | q :: qs, st, p, hp, htel, hhid => by
    rw [List.foldl_cons]
    rcases List.mem_cons.1 hp with rfl | hp'
    · refine telFold_mono_seen pp ip fm qs _ _ ?_
      rw [telStep, if_pos htel, if_neg (by simp [hhid])]
      simp only
      by_cases h3 : st.2.contains (beforeQuery (afterColon (attrD p.1 "href")))
      · rw [if_pos h3]
        exact (containsStr_iff _ _).1 h3
      · rw [if_neg h3]
        exact List.mem_cons_self _ _
    · exact telFold_seen pp ip fm qs _ p hp' htel hhid

/-- C8: `_normalize_phone` never raises: for every collaborator behaviour
and every input string, either the collaborator parses the (stripped)
input — region-agnostically when it starts with `+`, else with default
region "IN" — and assesses it as possible, in which case the E.164
formatting is returned, or the digits-only form of the input is
returned. -/
theorem c8_normalize_phone_total {P : Type}
    (parse : String → Option String → Option P) (isPossible : P → Bool)
    (fmtE164 : P → String) (s : String) :
    (∃ p, (if startsWithP (pyStrip s) "+" then parse (pyStrip s) none
           else parse (pyStrip s) (some "IN")) = some p ∧ isPossible p = true ∧
          normalize_phone parse isPossible fmtE164 s = fmtE164 p) ∨
    normalize_phone parse isPossible fmtE164 s = digitsOnly (pyStrip s) := by
  cases hp : (if startsWithP (pyStrip s) "+" then parse (pyStrip s) none
      else parse (pyStrip s) (some "IN")) with
  | none => exact Or.inr (by simp [normalize_phone, hp])
  | some p =>
    cases hip : isPossible p with
    | true => exact Or.inl ⟨p, rfl, hip, by simp [normalize_phone, hp, hip]⟩
    | false => exact Or.inr (by simp [normalize_phone, hp, hip])

/-- C2 counterexample: a node that is itself a `<template>` element (with
no hidden attributes and no ancestors) is *not* reported hidden — the
self-checks of `_is_hidden` omit the template-tag test. -/
theorem c2_counterexample : is_hidden [] templateNode = false := by decide

/-- C2 (amended): `_is_hidden` returns true for every node that has a
`template` element among its proper ancestors; the template test is only
applied to ancestors, not to the node itself. -/
theorem c2_template_ancestor_hidden (ancestors : List Node) (n : Node)
    (h : ∃ p ∈ ancestors, isTag p "template" = true) :
    is_hidden ancestors n = true := by
  obtain ⟨p, hp, ht⟩ := h
  rw [is_hidden, Bool.or_eq_true]
  exact Or.inl (List.any_eq_true.2 ⟨p, hp, by simp [ht]⟩)

/-- C2 witness: a plain `<p>` under a `<template>` ancestor is hidden. -/
theorem c2_witness :
    is_hidden [el "template" [] [], el "[document]" [] []] (el "p" [] []) = true :=
  c2_template_ancestor_hidden _ _ ⟨el "template" [] [], List.mem_cons_self _ _, by decide⟩

/-- C3: for every document with a (non-empty) title, the name-candidate
pass emits the part of the title before the first `|`, `-`, en-dash or
em-dash — stripped of surrounding whitespace by `add_candidate` — as a
raw candidate with confidence 0.50 and reason "title (first part)". -/
theorem c3_title_first_part (t : Node) (ti : String)
    (h1 : soupTitle t = some ti) (h2 : ti ≠ "") :
    mkCand (titleFirstPart ti) 50 "title (first part)" ∈ rawNameCands t := by
  rw [rawNameCands]
  refine List.mem_append.2 (Or.inl (List.mem_append.2 (Or.inl (List.mem_append.2 (Or.inr ?_)))))
  simp only [titlePass, h1]
  rw [if_neg (by simp [h2])]
  exact List.mem_singleton_self _

/-- C3 witness: `<title>Jane Doe - Portfolio</title>` yields the raw
candidate ("Jane Doe", 0.50, "title (first part)"). -/
theorem c3_witness :
    mkCand (titleFirstPart "Jane Doe - Portfolio") 50 "title (first part)"
      ∈ rawNameCands titleDoc :=
  c3_title_first_part titleDoc "Jane Doe - Portfolio" (by decide) (by decide)

/-- C7: every phone candidate that `extract_phones` takes from a visible
text fragment has at least 7 digits after stripping non-digits: each
output candidate either stems from the `tel:` anchor pass or satisfies
the digit bound. -/
theorem c7_text_digit_filter {P : Type} (pp : String → Option String → Option P)
    (ip : P → Bool) (fm : P → String) (t : Node) (c : PhoneCand)
    (hc : c ∈ (extract_phones pp ip fm t).1) :
    c ∈ ((findAllTag t "a").foldl (telStep pp ip fm) ([], [])).1 ∨
    7 ≤ (digitsOnly c.original).toList.length := by
  rw [extract_phones] at hc
  exact textPhones_digits pp ip fm _ _ c hc

/-- C7 witness: the visible fragment "id 12345678" yields a candidate,
which the digit filter certifies at ≥ 7 digits (the document has no
anchors, so the candidate is text-derived). -/
theorem c7_witness :
    (⟨"12345678", "12345678"⟩ : PhoneCand)
        ∈ (extract_phones parseNever (fun _ => false) (fun _ : String => "")
            textPhoneDoc).1 ∧
    ((⟨"12345678", "12345678"⟩ : PhoneCand)
        ∈ ((findAllTag textPhoneDoc "a").foldl
            (telStep parseNever (fun _ => false) (fun _ : String => "")) ([], [])).1 ∨
      7 ≤ (digitsOnly (⟨"12345678", "12345678"⟩ : PhoneCand).original).toList.length) :=
  ⟨by decide, c7_text_digit_filter parseNever _ _ textPhoneDoc _ (by decide)⟩

/-- C9: a non-hidden anchor whose lowercased href starts with `tel:`
always contributes a phone candidate whose original is the address part
(after the scheme, before any `?` suffix) — no digit-count filter is
applied on this path, whatever the collaborator does. -/
theorem c9_tel_anchor_no_digit_filter {P : Type}
    (pp : String → Option String → Option P) (ip : P → Bool) (fm : P → String)
    (t : Node) (p : Node × List Node) (hp : p ∈ findAllTag t "a")
    (htel : startsWithP (lowerS (attrD p.1 "href")) "tel:" = true)
    (hhid : is_hidden p.2 p.1 = false) :
    ∃ c ∈ (extract_phones pp ip fm t).1,
      c.original = beforeQuery (afterColon (attrD p.1 "href")) := by
  have hseen := telFold_seen pp ip fm (findAllTag t "a") ([], []) p hp htel hhid
  obtain ⟨c, hc, hco⟩ :=
    telFold_inv pp ip fm (findAllTag t "a") ([], []) (by simp) _ hseen
  refine ⟨c, ?_, hco⟩
  show c ∈ ((visible_texts t).1.foldl (textPhoneStep pp ip fm)
    ((findAllTag t "a").foldl (telStep pp ip fm) ([], []))).1
  exact textFold_mono_phones pp ip fm _ _ c hc

/-- C9 witness: `<a href="tel:">` (zero digits in the address) still
produces an output entry, with empty original. -/
theorem c9_witness :
    ∃ c ∈ (extract_phones parseNever (fun _ => false) (fun _ : String => "") telDoc).1,
      c.original = "" :=
  c9_tel_anchor_no_digit_filter parseNever _ _ telDoc
    (el "a" [("href", "tel:")] [Node.text "call"], [telDoc])
    (List.Mem.head _) (by decide) (by decide)

/-- C10: for a non-hidden `mailto:` anchor whose stripped,
query-suffix-dropped address prefix-matches `EMAIL_RE`, the *entire*
remaining address (trailing characters included) is added to the email
output. -/
theorem c10_mailto_adds_whole_address (t : Node) (p : Node × List Node)
    (hp : p ∈ findAllTag t "a")
    (hm : startsWithP (lowerS (attrD p.1 "href")) "mailto:" = true)
    (hmatch : emailMatchPrefix (pyStrip (beforeQuery (afterColon (attrD p.1 "href")))) = true)
    (hhid : is_hidden p.2 p.1 = false) :
    pyStrip (beforeQuery (afterColon (attrD p.1 "href"))) ∈ (extract_emails t).1 := by
  have hmem : pyStrip (beforeQuery (afterColon (attrD p.1 "href"))) ∈ mailtoEmails t := by
    rw [mailtoEmails]
    exact List.mem_filterMap.2 ⟨p, hp, by simp [hm, hmatch, hhid]⟩
  show pyStrip (beforeQuery (afterColon (attrD p.1 "href")))
      ∈ pySortedSet (mailtoEmails t ++ textEmails (visible_texts t).1)
  exact (mem_pySortedSet _ _).2 (List.mem_append.2 (Or.inl hmem))

/-- C10 witness: `mailto:a@b.com!!?subject=hi` — `EMAIL_RE` matches only
the prefix `a@b.com`, yet the whole address `a@b.com!!` is output. -/
theorem c10_witness : "a@b.com!!" ∈ (extract_emails mailtoDoc).1 :=
  c10_mailto_adds_whole_address mailtoDoc
    (el "a" [("href", "mailto:a@b.com!!?subject=hi")] [Node.text "m"], [mailtoDoc])
    (List.Mem.head _) (by decide) (by decide) (by decide)

/-- C4: every anchor with a non-empty href containing a social domain
(and not `javascript:`) contributes its resolved URL — with no
visibility test, so hidden anchors are reported too — and the output is
the raw scan deduplicated by resolved URL: same members, no duplicates,
a subsequence of the scan, preserving the relative order of first
occurrences. -/
theorem c4_social_links (resolve : String → String → String) (base : String) (t : Node) :
    (∀ p ∈ findAllTag t "a", ∀ href : String,
       attrGet p.1 "href" = some href → href ≠ "" →
       SOCIAL_DOMAINS.any (fun dom => containsSub (lowerS href) dom) = true →
       startsWithP (lowerS href) "javascript:" = false →
       resolve base href ∈ extract_socials resolve base t) ∧
    (∀ u, u ∈ extract_socials resolve base t ↔ u ∈ rawSocials resolve base t) ∧
    (extract_socials resolve base t).Nodup ∧
    (extract_socials resolve base t).Sublist (rawSocials resolve base t) ∧
    (∀ u v, u ∈ extract_socials resolve base t → v ∈ extract_socials resolve base t →
       List.indexOf u (rawSocials resolve base t) ≤ List.indexOf v (rawSocials resolve base t) →
       List.indexOf u (extract_socials resolve base t) ≤
         List.indexOf v (extract_socials resolve base t)) := by
  have hmem : ∀ u, u ∈ extract_socials resolve base t ↔ u ∈ rawSocials resolve base t := by
    intro u
    rw [extract_socials, mem_dedupFirst]
    simp
  refine ⟨?_, hmem, dedupFirst_nodup _ _, dedupFirst_sublist _ _, ?_⟩
  · intro p hp href hhref hne hdom hjs
    refine (hmem _).2 ?_
    rw [rawSocials]
    refine List.mem_filterMap.2 ⟨p, hp, ?_⟩
    have hD : attrD p.1 "href" = href := by rw [attrD, hhref]; rfl
    simp [hD, hne, hdom, hjs]
  · intro u v hu hv h
    exact dedupFirst_indexOf _ [] u v hu hv h

/-- C4 witness: the hidden LinkedIn anchor of `socialDoc` is reported. -/
theorem c4_witness :
    resolveKeep "base" "https://linkedin.com/in/a"
      ∈ extract_socials resolveKeep "base" socialDoc :=
  (c4_social_links resolveKeep "base" socialDoc).1
    (el "a" [("href", "https://linkedin.com/in/a")] [],
      [el "div" [("hidden", "")] [el "a" [("href", "https://linkedin.com/in/a")] []],
       socialDoc])
    (List.Mem.head _) "https://linkedin.com/in/a" (by decide) (by decide) (by decide)
    (by decide)

/-- C6: the email output is exactly the union of the `mailto:` addresses
and the visible-text pattern matches, deduplicated and strictly sorted
by Python string `<`; on `<a href="mailto:a@b.com">x</a><p>a@b.com
c@d.org</p>` it is exactly `["a@b.com", "c@d.org"]`. -/
theorem c6_email_union_sorted :
    (∀ t : Node,
      (∀ x : String, x ∈ (extract_emails t).1 ↔
        x ∈ mailtoEmails t ∨ x ∈ textEmails (visible_texts t).1) ∧
      (extract_emails t).1.Pairwise (fun a b => strLt a b = true)) ∧
    (extract_emails emailDoc).1 = ["a@b.com", "c@d.org"] := by
  refine ⟨fun t => ⟨fun x => ?_, ?_⟩, by decide⟩
  · show x ∈ pySortedSet (mailtoEmails t ++ textEmails (visible_texts t).1) ↔ _
    rw [mem_pySortedSet, List.mem_append]
  · show (pySortedSet (mailtoEmails t ++ textEmails (visible_texts t).1)).Pairwise _
    exact pySortedSet_sorted _

/-- C5: the final name candidates are sorted by descending confidence
with distinct, non-empty collapsed names; each survivor is a raw
candidate of maximal confidence for its collapsed name; every raw
candidate with a non-empty name is represented; the sort is stable (the
subsequence at each confidence value is the accumulation order); and on
`janeDoc` the single survivor is ("Jane Doe", 0.90, "meta[name=author]").
Confidences are in integer hundredths. -/
theorem c5_name_dedup_ranking :
    (∀ t : Node,
      (extract_name_candidates t).Pairwise (fun a b => b.confidence ≤ a.confidence) ∧
      ((extract_name_candidates t).map (fun c => collapseWs c.name)).Nodup ∧
      (∀ c ∈ extract_name_candidates t,
        collapseWs c.name ≠ "" ∧ c ∈ rawNameCands t ∧
        ∀ d ∈ rawNameCands t, collapseWs d.name = collapseWs c.name →
          d.confidence ≤ c.confidence) ∧
      (∀ d ∈ rawNameCands t, collapseWs d.name ≠ "" →
        ∃ c ∈ extract_name_candidates t, collapseWs c.name = collapseWs d.name) ∧
      (∀ q : Nat, (sortCands (rawNameCands t)).filter (fun c => c.confidence == q) =
        (rawNameCands t).filter (fun c => c.confidence == q))) ∧
    extract_name_candidates janeDoc = [⟨"Jane Doe", 90, "meta[name=author]"⟩] := by
  refine ⟨fun t => ⟨?_, ?_, ?_, ?_, ?_⟩, by decide⟩
  · exact List.Pairwise.sublist (dedupeCands_sublist _ _) (sortCands_pairwise _)
  · exact dedupeCands_keys_nodup _ _
  · intro c hc
    obtain ⟨h1, h2, _⟩ := mem_dedupeCands _ _ c hc
    refine ⟨h2, (sortCands_perm _).mem_iff.1 h1, ?_⟩
    intro d hd hdn
    exact dedupeCands_max _ [] c (sortCands_pairwise _) hc d
      ((sortCands_perm _).mem_iff.2 hd) hdn
  · intro d hd hne
    exact dedupeCands_complete _ [] d ((sortCands_perm _).mem_iff.2 hd) hne (by simp)
  · intro q
    exact sortCands_filter _ q

/-- C1 (refuted by the code): the extraction pipeline mutates the soup
(`_visible_texts` destructively removes script/style/noscript/iframe
subtrees and comments), so a second run on the same tree differs: on
`noscriptDoc` the first run reports the `noscript`-contained social
link, the second run finds no anchors at all. -/
theorem c1_mutation_breaks_idempotence :
    (extractAll resolveKeep parseNever (fun _ => false) (fun _ : String => "")
        noscriptDoc "u").1.socials = ["https://linkedin.com/in/x"] ∧
    (extractAll resolveKeep parseNever (fun _ => false) (fun _ : String => "")
        ((extractAll resolveKeep parseNever (fun _ => false) (fun _ : String => "")
          noscriptDoc "u").2) "u").1.socials = [] := by
  exact ⟨by decide, by decide⟩

/-- C5 witness: instantiating the ranking theorem at `janeDoc` and its
surviving candidate: the meta-author instance dominates every raw
candidate with the same collapsed name. -/
theorem c5_witness :
    collapseWs (NameCand.mk "Jane Doe" 90 "meta[name=author]").name ≠ "" ∧
    (NameCand.mk "Jane Doe" 90 "meta[name=author]") ∈ rawNameCands janeDoc ∧
    (∀ d ∈ rawNameCands janeDoc,
      collapseWs d.name = collapseWs (NameCand.mk "Jane Doe" 90 "meta[name=author]").name →
      d.confidence ≤ (NameCand.mk "Jane Doe" 90 "meta[name=author]").confidence) :=
  ((c5_name_dedup_ranking).1 janeDoc).2.2.1
    (NameCand.mk "Jane Doe" 90 "meta[name=author]") (by decide)

/-- C6 witness: the union characterization instantiated at `emailDoc`
and the address "a@b.com". -/
theorem c6_witness :
    "a@b.com" ∈ (extract_emails emailDoc).1 ↔
      "a@b.com" ∈ mailtoEmails emailDoc ∨
      "a@b.com" ∈ textEmails (visible_texts emailDoc).1 :=
  ((c6_email_union_sorted).1 emailDoc).1 "a@b.com"

/-- C8 witness: the totality theorem instantiated at an always-failing
parser and the input " abc12 ". -/
theorem c8_witness :
    (∃ p : String,
      (if startsWithP (pyStrip " abc12 ") "+" then parseNever (pyStrip " abc12 ") none
       else parseNever (pyStrip " abc12 ") (some "IN")) = some p ∧
      (fun _ : String => false) p = true ∧
      normalize_phone parseNever (fun _ : String => false) (fun _ : String => "") " abc12 " =
        (fun _ : String => "") p) ∨
    normalize_phone parseNever (fun _ : String => false) (fun _ : String => "") " abc12 " =
      digitsOnly (pyStrip " abc12 ") :=
  c8_normalize_phone_total parseNever (fun _ => false) (fun _ => "") " abc12 "
